import Mathlib

set_option maxRecDepth 8192

/-!
Shallow embedding of the QICK multi-channel DDS signal-generation datapath,
the Verilog module dds_top: a bank of N numerically controlled oscillators,
a 4-deep latency aligner per channel, a shared Q15 gain multiply, and one
output register per channel, all in one synchronous clock domain.

Each hardware register is a field of an explicit state record and a clock
edge is a total step function from current state and current inputs to the
next state.  Buses are Nat values with explicit width bounds; the signed
reading of a 16-bit field is made explicit through toSigned16.

The sub-blocks phase_ctrl, dds_compiler_0 and latency_reg are instantiated
in dds_top but their implementations are not part of the given source; the
definitions for their internals below carry a doc comment saying that they
are modelled from the spec.  Everything else is translated directly from
the dds_top source.
-/

namespace DdsTop

/-- Interpret a 16-bit field (a Nat below 65536) as a signed
twos-complement integer in the range -32768 to 32767. -/
def toSigned16 (x : Nat) : Int :=
  if x < 32768 then (x : Int) else (x : Int) - 65536

/-- Encode a signed integer into its low 16 bits (twos complement). -/
def toBits16 (v : Int) : Nat :=
  (v % 65536).toNat

/-- Value stored in the 32-bit product registers prod_real_r1 and
prod_imag_r1 of dds_top: the 32-bit twos-complement encoding of the signed
16 by 16 product, from the source assignment of prod_real and prod_imag. -/
def prodReg (a g : Int) : Nat :=
  ((a * g) % 2 ^ 32).toNat

/-- Bits 30 down to 15 of a 32-bit register value, from the source
assignment of prod_real_q and prod_imag_q (part-select 30 -: 16). -/
def prodQ (r : Nat) : Nat :=
  r / 2 ^ 15 % 2 ^ 16

/-- Packing of the two scaled 16-bit components into one 32-bit word with
the imaginary part in the high half and the real part in the low half,
from the source assignment of prod. -/
def packProd (im re : Nat) : Nat :=
  im * 2 ^ 16 + re

/-- Modelled from the spec: the phase-to-amplitude table of the oscillator
core dds_compiler_0, whose implementation is not part of the given source.
Entry k is the cosine of k/256 of a turn quantized to a signed 16-bit
amplitude with full scale 32767, per the spec contract for the oscillator
bank. -/
def cosTable : List Int := [
    32767, 32757, 32728, 32678, 32609, 32521, 32412, 32285,
    32137, 31971, 31785, 31580, 31356, 31113, 30852, 30571,
    30273, 29956, 29621, 29268, 28898, 28510, 28105, 27683,
    27245, 26790, 26319, 25832, 25329, 24811, 24279, 23731,
    23170, 22594, 22005, 21403, 20787, 20159, 19519, 18868,
    18204, 17530, 16846, 16151, 15446, 14732, 14010, 13279,
    12539, 11793, 11039, 10278, 9512, 8740, 7962, 7179,
    6393, 5602, 4808, 4011, 3212, 2410, 1608, 804,
    0, -804, -1608, -2410, -3212, -4011, -4808, -5602,
    -6393, -7179, -7962, -8740, -9512, -10278, -11039, -11793,
    -12539, -13279, -14010, -14732, -15446, -16151, -16846, -17530,
    -18204, -18868, -19519, -20159, -20787, -21403, -22005, -22594,
    -23170, -23731, -24279, -24811, -25329, -25832, -26319, -26790,
    -27245, -27683, -28105, -28510, -28898, -29268, -29621, -29956,
    -30273, -30571, -30852, -31113, -31356, -31580, -31785, -31971,
    -32137, -32285, -32412, -32521, -32609, -32678, -32728, -32757,
    -32767, -32757, -32728, -32678, -32609, -32521, -32412, -32285,
    -32137, -31971, -31785, -31580, -31356, -31113, -30852, -30571,
    -30273, -29956, -29621, -29268, -28898, -28510, -28105, -27683,
    -27245, -26790, -26319, -25832, -25329, -24811, -24279, -23731,
    -23170, -22594, -22005, -21403, -20787, -20159, -19519, -18868,
    -18204, -17530, -16846, -16151, -15446, -14732, -14010, -13279,
    -12539, -11793, -11039, -10278, -9512, -8740, -7962, -7179,
    -6393, -5602, -4808, -4011, -3212, -2410, -1608, -804,
    0, 804, 1608, 2410, 3212, 4011, 4808, 5602,
    6393, 7179, 7962, 8740, 9512, 10278, 11039, 11793,
    12539, 13279, 14010, 14732, 15446, 16151, 16846, 17530,
    18204, 18868, 19519, 20159, 20787, 21403, 22005, 22594,
    23170, 23731, 24279, 24811, 25329, 25832, 26319, 26790,
    27245, 27683, 28105, 28510, 28898, 29268, 29621, 29956,
    30273, 30571, 30852, 31113, 31356, 31580, 31785, 31971,
    32137, 32285, 32412, 32521, 32609, 32678, 32728, 32757]

/-- Modelled from the spec: quantized cosine of a 32-bit phase word read
as a fraction of a turn, using the top 8 phase bits as table index. -/
def quantCos (p : Nat) : Int :=
  cosTable.getD (p / 2 ^ 24 % 256) 0

/-- Modelled from the spec: quantized sine of a 32-bit phase word, using
the quarter-turn shift of the cosine table. -/
def quantSin (p : Nat) : Int :=
  cosTable.getD ((p / 2 ^ 24 + 192) % 256) 0

/-- Modelled from the spec: the packed 32-bit quadrature output word of
the oscillator for a given accumulator phase, imaginary (sine) part in the
high 16 bits and real (cosine) part in the low 16 bits. -/
def ddsAmp (p : Nat) : Nat :=
  toBits16 (quantSin p) * 2 ^ 16 + toBits16 (quantCos p)

/-- Modelled from the spec: internal state of one dds_compiler_0
oscillator instance: the 32-bit phase accumulator and a 10-deep output
pipeline realizing the documented latency of 10 cycles.  The instantiation
in the dds_top source connects only clock, phase valid, phase data and
output data to this block and no reset, so its state carries no reset
path. -/
structure OscState where
  acc : Nat
  d1 : Nat
  d2 : Nat
  d3 : Nat
  d4 : Nat
  d5 : Nat
  d6 : Nat
  d7 : Nat
  d8 : Nat
  d9 : Nat
  d10 : Nat
deriving DecidableEq

/-- Modelled from the spec: one clock edge of dds_compiler_0.  When the
input valid flag is high the phase accumulator advances by the increment
carried in the control word, wrapping modulo 2 to the 32; the quadrature
sample of the current phase enters the 10-deep output pipeline every
cycle. -/
def oscStep (tvalid : Bool) (ctrlw : Nat) (o : OscState) : OscState :=
  let a := if tvalid then (o.acc + ctrlw) % 2 ^ 32 else o.acc
  { acc := a, d1 := ddsAmp a, d2 := o.d1, d3 := o.d2, d4 := o.d3,
    d5 := o.d4, d6 := o.d5, d7 := o.d6, d8 := o.d7, d9 := o.d8,
    d10 := o.d9 }

/-- Output wire of the oscillator: the wire dds_dout in the source. -/
def oscOut (o : OscState) : Nat := o.d10

/-- Modelled from the spec: state of one latency_reg instance with
parameters N equal 4 and B equal 32: a 4-deep 32-bit shift register. -/
structure LatState where
  l1 : Nat
  l2 : Nat
  l3 : Nat
  l4 : Nat
deriving DecidableEq

/-- Modelled from the spec: one clock edge of latency_reg: while reset is
asserted (rstn low) every stage clears to zero, otherwise the input shifts
in by one stage. -/
def latStep (rstn : Bool) (din : Nat) (s : LatState) : LatState :=
  if rstn then { l1 := din, l2 := s.l1, l3 := s.l2, l4 := s.l3 }
  else { l1 := 0, l2 := 0, l3 := 0, l4 := 0 }

/-- Output wire of the latency aligner: the wire dds_dout_la in the
source. -/
def latOut (s : LatState) : Nat := s.l4

/-- State of one generated channel of dds_top (generate block GEN_dds):
the oscillator instance, the latency aligner instance, and the three
product registers prod_real_r1, prod_imag_r1 and prod_r1. -/
structure ChState where
  osc : OscState
  la : LatState
  prodRealR1 : Nat
  prodImagR1 : Nat
  prodR1 : Nat
deriving DecidableEq

/-- One clock edge of one generated channel, from the dds_top source: the
oscillator consumes the pre-edge valid flag and control word; the aligner
consumes the oscillator output wire; the product registers load the signed
product of the aligner output halves with the gain, and the output
register loads the packed pair of bit slices 30 down to 15 of the previous
products; under reset the three product registers clear to zero. -/
def chStep (tvalid : Bool) (ctrlw : Nat) (rstn : Bool) (gainw : Nat)
    (c : ChState) : ChState :=
  let dla := latOut c.la
  let aR := toSigned16 (dla % 2 ^ 16)
  let aI := toSigned16 (dla / 2 ^ 16 % 2 ^ 16)
  let g := toSigned16 gainw
  { osc := oscStep tvalid ctrlw c.osc
    la := latStep rstn (oscOut c.osc) c.la
    prodRealR1 := if rstn then prodReg aR g else 0
    prodImagR1 := if rstn then prodReg aI g else 0
    prodR1 := if rstn then packProd (prodQ c.prodImagR1) (prodQ c.prodRealR1)
              else 0 }

/-- Inputs of dds_top sampled in one cycle.  The field ctrl i is the
control word wire dds_ctrl_int for channel i, driven by the phase_ctrl
block whose implementation is not part of the given source; only the
32-bit phase increment the word carries is modelled, the rest of the
72-bit layout being opaque. -/
structure DIn (N : Nat) where
  rstn : Bool
  gain : Nat
  ctrl : Fin N → Nat

/-- Registers of dds_top itself (the valid flag dds_tvalid_r and the
control word register dds_ctrl_int_r) together with the per-channel
blocks. -/
structure TopState (N : Nat) where
  tvalid : Bool
  ctrlR : Fin N → Nat
  chs : Fin N → ChState

/-- One clock edge of dds_top: under reset the valid flag and the control
word register clear, otherwise the flag loads 1 and the register loads the
incoming control words; every channel steps with the pre-edge flag and
register values, from the dds_top source register blocks. -/
def topStep {N : Nat} (x : DIn N) (s : TopState N) : TopState N :=
  { tvalid := if x.rstn then true else false
    ctrlR := fun i => if x.rstn then x.ctrl i else 0
    chs := fun i => chStep s.tvalid (s.ctrlR i) x.rstn x.gain (s.chs i) }

/-- Channel slice of the output bus: dds_dout_o at bits i*32 up to i*32+31
equals prod_r1 of channel i. -/
def outWord {N : Nat} (s : TopState N) (i : Fin N) : Nat :=
  (s.chs i).prodR1

/-- Concatenation of a list of 32-bit words, first word in the lowest
bits. -/
def concatWords : List Nat → Nat
  | [] => 0
  | w :: ws => w + 2 ^ 32 * concatWords ws

/-- The full output bus dds_dout_o: concatenation of the per-channel
words, channel i occupying bits i*32 up to i*32+31. -/
def busOut {N : Nat} (s : TopState N) : Nat :=
  concatWords (List.ofFn (outWord s))

/-- Multi-cycle run: state after n clock edges from initial state s0 under
input stream x. -/
def run {N : Nat} (x : Nat → DIn N) (s0 : TopState N) : Nat → TopState N
  | 0 => s0
  | n + 1 => topStep (x n) (run x s0 n)

/-- Power-on zero state of one oscillator instance. -/
def zeroOsc : OscState :=
  ⟨0, 0, 0, 0, 0, 0, 0, 0, 0, 0, 0⟩

/-- Power-on zero state of one latency aligner instance. -/
def zeroLat : LatState :=
  ⟨0, 0, 0, 0⟩

/-- Power-on zero state of one channel. -/
def zeroCh : ChState :=
  ⟨zeroOsc, zeroLat, 0, 0, 0⟩

/-- Power-on zero state of the whole module. -/
def initState (N : Nat) : TopState N :=
  ⟨false, fun _ => 0, fun _ => zeroCh⟩

/-- Width invariant of one channel state: every register holds a value
inside its declared bus width. -/
def chWf (c : ChState) : Prop :=
  c.osc.acc < 2 ^ 32 ∧ c.osc.d1 < 2 ^ 32 ∧ c.osc.d2 < 2 ^ 32 ∧
  c.osc.d3 < 2 ^ 32 ∧ c.osc.d4 < 2 ^ 32 ∧ c.osc.d5 < 2 ^ 32 ∧
  c.osc.d6 < 2 ^ 32 ∧ c.osc.d7 < 2 ^ 32 ∧ c.osc.d8 < 2 ^ 32 ∧
  c.osc.d9 < 2 ^ 32 ∧ c.osc.d10 < 2 ^ 32 ∧
  c.la.l1 < 2 ^ 32 ∧ c.la.l2 < 2 ^ 32 ∧ c.la.l3 < 2 ^ 32 ∧
  c.la.l4 < 2 ^ 32 ∧
  c.prodRealR1 < 2 ^ 32 ∧ c.prodImagR1 < 2 ^ 32 ∧ c.prodR1 < 2 ^ 32

/-- Width invariant of the whole module state. -/
def wf {N : Nat} (s : TopState N) : Prop :=
  ∀ i, s.ctrlR i < 2 ^ 32 ∧ chWf (s.chs i)

/-- Width invariant of the inputs of one cycle. -/
def inWf {N : Nat} (x : DIn N) : Prop :=
  x.gain < 2 ^ 16 ∧ ∀ i, x.ctrl i < 2 ^ 32

instance : DecidablePred chWf := fun c => by
  unfold chWf; infer_instance

instance {N : Nat} (s : TopState N) : Decidable (wf s) := by
  unfold wf; infer_instance

end DdsTop

namespace DdsTop

/-! ### Arithmetic facts about the gain stage -/

theorem toSigned16_range (x : Nat) (h : x < 65536) :
    -32768 ≤ toSigned16 x ∧ toSigned16 x < 32768 := by
  unfold toSigned16
  split <;> omega

theorem toBits16_lt (v : Int) : toBits16 v < 65536 := by
  unfold toBits16
  omega

theorem toSigned16_toBits16 (v : Int) (h1 : -32768 ≤ v) (h2 : v < 32768) :
    toSigned16 (toBits16 v) = v := by
  unfold toSigned16 toBits16
  split <;> omega

theorem prodQ_lt (r : Nat) : prodQ r < 65536 := by
  unfold prodQ
  omega

theorem prodReg_lt (a g : Int) : prodReg a g < 2 ^ 32 := by
  unfold prodReg
  omega

/-- Bits 30 down to 15 of the 32-bit twos-complement product register are
exactly the low 16 bits of the floor (arithmetic) right shift of the
mathematical product by 15 bit positions. -/
theorem prodQ_prodReg (a g : Int) :
    prodQ (prodReg a g) = (((a * g).fdiv (2 ^ 15)) % (2 ^ 16)).toNat := by
  unfold prodQ prodReg
  rw [Int.fdiv_eq_ediv _ (by norm_num)]
  omega

theorem fdiv_range_of_bounds (p : Int) (h1 : -(2 ^ 30) ≤ p) (h2 : p < 2 ^ 30) :
    -32768 ≤ p.fdiv (2 ^ 15) ∧ p.fdiv (2 ^ 15) < 32768 := by
  rw [Int.fdiv_eq_ediv _ (by norm_num)]
  omega

theorem packProd_low (im re : Nat) (h : re < 65536) :
    packProd im re % 2 ^ 16 = re := by
  unfold packProd
  omega

theorem packProd_high (im re : Nat) (him : im < 65536) (hre : re < 65536) :
    packProd im re / 2 ^ 16 % 2 ^ 16 = im := by
  unfold packProd
  omega

theorem packProd_lt (im re : Nat) (him : im < 65536) (hre : re < 65536) :
    packProd im re < 2 ^ 32 := by
  unfold packProd
  omega

theorem ddsAmp_lt (p : Nat) : ddsAmp p < 2 ^ 32 := by
  unfold ddsAmp
  have h1 := toBits16_lt (quantSin p)
  have h2 := toBits16_lt (quantCos p)
  omega

theorem ddsAmp_low (p : Nat) : ddsAmp p % 2 ^ 16 = toBits16 (quantCos p) := by
  unfold ddsAmp
  have h2 := toBits16_lt (quantCos p)
  omega

theorem ddsAmp_high (p : Nat) : ddsAmp p / 2 ^ 16 % 2 ^ 16 = toBits16 (quantSin p) := by
  unfold ddsAmp
  have h1 := toBits16_lt (quantSin p)
  have h2 := toBits16_lt (quantCos p)
  omega

theorem cosTable_range : ∀ v ∈ cosTable, -32768 ≤ v ∧ v < 32768 := by
  decide

theorem getD_mem_or_default (l : List Int) (n : Nat) (d : Int) :
    l.getD n d ∈ l ∨ l.getD n d = d := by
  induction l generalizing n with
  | nil => right; cases n <;> rfl
  | cons w ws ih =>
    cases n with
    | zero => left; exact List.mem_cons_self _ _
    | succ k =>
      rcases ih k with h | h
      · left; exact List.mem_cons_of_mem _ h
      · right; exact h

theorem quantCos_range (p : Nat) : -32768 ≤ quantCos p ∧ quantCos p < 32768 := by
  unfold quantCos
  rcases getD_mem_or_default cosTable (p / 2 ^ 24 % 256) 0 with h | h
  · exact cosTable_range _ h
  · rw [h]; norm_num

theorem quantSin_range (p : Nat) : -32768 ≤ quantSin p ∧ quantSin p < 32768 := by
  unfold quantSin
  rcases getD_mem_or_default cosTable ((p / 2 ^ 24 + 192) % 256) 0 with h | h
  · exact cosTable_range _ h
  · rw [h]; norm_num

/-- Away from the single corner pair, the signed 16 by 16 product stays
strictly below 2 to the 30 and is never below minus 2 to the 30. -/
theorem prod_bounds (a g : Int) (ha1 : -32768 ≤ a) (ha2 : a < 32768)
    (hg1 : -32768 ≤ g) (hg2 : g < 32768) (hc : ¬(a = -32768 ∧ g = -32768)) :
    -(2 ^ 30) ≤ a * g ∧ a * g < 2 ^ 30 := by
  have hc2 : -32767 ≤ a ∨ -32767 ≤ g := by omega
  rcases le_or_lt 0 a with ha0 | ha0 <;> rcases le_or_lt 0 g with hg0 | hg0
  · constructor
    · nlinarith [mul_nonneg ha0 hg0]
    · nlinarith [mul_le_mul (show a ≤ 32767 by omega) (show g ≤ 32767 by omega)
        hg0 (show (0:Int) ≤ 32767 by norm_num)]
  · constructor
    · nlinarith [mul_le_mul (show a ≤ 32767 by omega) (show -g ≤ 32768 by omega)
        (show (0:Int) ≤ -g by omega) (show (0:Int) ≤ 32767 by norm_num)]
    · nlinarith [mul_nonneg ha0 (show (0:Int) ≤ -g by omega)]
  · constructor
    · nlinarith [mul_le_mul (show g ≤ 32767 by omega) (show -a ≤ 32768 by omega)
        (show (0:Int) ≤ -a by omega) (show (0:Int) ≤ 32767 by norm_num)]
    · nlinarith [mul_nonneg hg0 (show (0:Int) ≤ -a by omega)]
  · constructor
    · nlinarith [mul_pos (show (0:Int) < -a by omega) (show (0:Int) < -g by omega)]
    · rcases hc2 with h | h
      · nlinarith [mul_le_mul (show -a ≤ 32767 by omega) (show -g ≤ 32768 by omega)
          (show (0:Int) ≤ -g by omega) (show (0:Int) ≤ 32767 by norm_num)]
      · nlinarith [mul_le_mul (show -g ≤ 32767 by omega) (show -a ≤ 32768 by omega)
          (show (0:Int) ≤ -a by omega) (show (0:Int) ≤ 32767 by norm_num)]

end DdsTop
namespace DdsTop

/-! ### Single-step and multi-step register evolution -/

theorem run_succ {N : Nat} (x : Nat → DIn N) (s0 : TopState N) (n : Nat) :
    run x s0 (n + 1) = topStep (x n) (run x s0 n) := rfl

theorem tvalid_run {N : Nat} (x : Nat → DIn N) (s0 : TopState N) (n : Nat) :
    (run x s0 (n + 1)).tvalid = (x n).rstn := by
  show (if (x n).rstn then true else false) = (x n).rstn
  cases (x n).rstn <;> rfl

theorem ctrlR_run {N : Nat} (x : Nat → DIn N) (s0 : TopState N) (n : Nat) (i : Fin N) :
    (run x s0 (n + 1)).ctrlR i = if (x n).rstn then (x n).ctrl i else 0 := rfl

theorem chs_run {N : Nat} (x : Nat → DIn N) (s0 : TopState N) (n : Nat) (i : Fin N) :
    (run x s0 (n + 1)).chs i =
      chStep (run x s0 n).tvalid ((run x s0 n).ctrlR i) ((x n).rstn) ((x n).gain)
        ((run x s0 n).chs i) := rfl

theorem acc_run {N : Nat} (x : Nat → DIn N) (s0 : TopState N) (n : Nat) (i : Fin N) :
    ((run x s0 (n + 1)).chs i).osc.acc =
      if (run x s0 n).tvalid
      then (((run x s0 n).chs i).osc.acc + (run x s0 n).ctrlR i) % 2 ^ 32
      else ((run x s0 n).chs i).osc.acc := rfl

theorem d1_run {N : Nat} (x : Nat → DIn N) (s0 : TopState N) (n : Nat) (i : Fin N) :
    ((run x s0 (n + 1)).chs i).osc.d1 = ddsAmp (((run x s0 (n + 1)).chs i).osc.acc) := rfl

theorem d10_run {N : Nat} (x : Nat → DIn N) (s0 : TopState N) (n : Nat) (i : Fin N) :
    ((run x s0 (n + 9)).chs i).osc.d10 = ((run x s0 n).chs i).osc.d1 := rfl

theorem la_run {N : Nat} (x : Nat → DIn N) (s0 : TopState N) (n : Nat) (i : Fin N)
    (hr : (x n).rstn = true) :
    ((run x s0 (n + 1)).chs i).la =
      ⟨oscOut (((run x s0 n).chs i).osc), ((run x s0 n).chs i).la.l1,
        ((run x s0 n).chs i).la.l2, ((run x s0 n).chs i).la.l3⟩ := by
  show latStep ((x n).rstn) _ _ = _
  rw [hr]
  rfl

theorem la_run_reset {N : Nat} (x : Nat → DIn N) (s0 : TopState N) (n : Nat) (i : Fin N)
    (hr : (x n).rstn = false) :
    ((run x s0 (n + 1)).chs i).la = zeroLat := by
  show latStep ((x n).rstn) _ _ = _
  rw [hr]
  rfl

theorem la4_run {N : Nat} (x : Nat → DIn N) (s0 : TopState N) (n : Nat) (i : Fin N)
    (h1 : (x n).rstn = true) (h2 : (x (n + 1)).rstn = true)
    (h3 : (x (n + 2)).rstn = true) (h4 : (x (n + 3)).rstn = true) :
    ((run x s0 (n + 4)).chs i).la.l4 = oscOut (((run x s0 n).chs i).osc) := by
  rw [la_run x s0 (n + 3) i h4]
  show ((run x s0 (n + 2 + 1)).chs i).la.l3 = _
  rw [la_run x s0 (n + 2) i h3]
  show ((run x s0 (n + 1 + 1)).chs i).la.l2 = _
  rw [la_run x s0 (n + 1) i h2]
  show ((run x s0 (n + 1)).chs i).la.l1 = _
  rw [la_run x s0 n i h1]

theorem prodRealR1_run {N : Nat} (x : Nat → DIn N) (s0 : TopState N) (n : Nat) (i : Fin N)
    (hr : (x n).rstn = true) :
    ((run x s0 (n + 1)).chs i).prodRealR1 =
      prodReg (toSigned16 (latOut (((run x s0 n).chs i).la) % 2 ^ 16))
        (toSigned16 ((x n).gain)) := by
  show (if (x n).rstn then _ else 0) = _
  rw [hr]
  rfl

theorem prodImagR1_run {N : Nat} (x : Nat → DIn N) (s0 : TopState N) (n : Nat) (i : Fin N)
    (hr : (x n).rstn = true) :
    ((run x s0 (n + 1)).chs i).prodImagR1 =
      prodReg (toSigned16 (latOut (((run x s0 n).chs i).la) / 2 ^ 16 % 2 ^ 16))
        (toSigned16 ((x n).gain)) := by
  show (if (x n).rstn then _ else 0) = _
  rw [hr]
  rfl

theorem prodR1_run {N : Nat} (x : Nat → DIn N) (s0 : TopState N) (n : Nat) (i : Fin N)
    (hr : (x n).rstn = true) :
    ((run x s0 (n + 1)).chs i).prodR1 =
      packProd (prodQ (((run x s0 n).chs i).prodImagR1))
        (prodQ (((run x s0 n).chs i).prodRealR1)) := by
  show (if (x n).rstn then _ else 0) = _
  rw [hr]
  rfl

/-- Closed form of the output word after the pipeline has been given
enough reset-free cycles: the word at cycle m+17 packs the two gain-scaled
bit slices of the quadrature sample whose phase the accumulator held at
cycle m+2, scaled by the gain input of cycle m+15. -/
theorem out_formula {N : Nat} (x : Nat → DIn N) (s0 : TopState N) (i : Fin N)
    (H : ∀ k, (x k).rstn = true) (m : Nat) :
    outWord (run x s0 (m + 17)) i =
      packProd
        (prodQ (prodReg
          (toSigned16 (ddsAmp (((run x s0 (m + 2)).chs i).osc.acc) / 2 ^ 16 % 2 ^ 16))
          (toSigned16 ((x (m + 15)).gain))))
        (prodQ (prodReg
          (toSigned16 (ddsAmp (((run x s0 (m + 2)).chs i).osc.acc) % 2 ^ 16))
          (toSigned16 ((x (m + 15)).gain)))) := by
  show ((run x s0 (m + 16 + 1)).chs i).prodR1 = _
  rw [prodR1_run x s0 (m + 16) i (H (m + 16))]
  have hreal : ((run x s0 (m + 16)).chs i).prodRealR1 =
      prodReg (toSigned16 (latOut (((run x s0 (m + 15)).chs i).la) % 2 ^ 16))
        (toSigned16 ((x (m + 15)).gain)) :=
    prodRealR1_run x s0 (m + 15) i (H (m + 15))
  have himag : ((run x s0 (m + 16)).chs i).prodImagR1 =
      prodReg (toSigned16 (latOut (((run x s0 (m + 15)).chs i).la) / 2 ^ 16 % 2 ^ 16))
        (toSigned16 ((x (m + 15)).gain)) :=
    prodImagR1_run x s0 (m + 15) i (H (m + 15))
  have hla : latOut (((run x s0 (m + 15)).chs i).la) =
      oscOut (((run x s0 (m + 11)).chs i).osc) := by
    show ((run x s0 (m + 11 + 4)).chs i).la.l4 = _
    exact la4_run x s0 (m + 11) i (H (m + 11)) (H (m + 12)) (H (m + 13)) (H (m + 14))
  have hd10 : oscOut (((run x s0 (m + 11)).chs i).osc) =
      ddsAmp (((run x s0 (m + 2)).chs i).osc.acc) := by
    show ((run x s0 (m + 2 + 9)).chs i).osc.d10 = _
    rw [d10_run x s0 (m + 2) i]
    exact d1_run x s0 (m + 1) i
  rw [hreal, himag, hla, hd10]

end DdsTop

namespace DdsTop

/-! ### Projection lemmas for one channel step -/

theorem chStep_acc (t : Bool) (c : Nat) (r : Bool) (g : Nat) (ch : ChState) :
    (chStep t c r g ch).osc.acc = if t then (ch.osc.acc + c) % 2 ^ 32 else ch.osc.acc := rfl

theorem chStep_d1 (t : Bool) (c : Nat) (r : Bool) (g : Nat) (ch : ChState) :
    (chStep t c r g ch).osc.d1 = ddsAmp ((chStep t c r g ch).osc.acc) := rfl

theorem chStep_dshift (t : Bool) (c : Nat) (r : Bool) (g : Nat) (ch : ChState) :
    (chStep t c r g ch).osc.d2 = ch.osc.d1 ∧ (chStep t c r g ch).osc.d3 = ch.osc.d2 ∧
    (chStep t c r g ch).osc.d4 = ch.osc.d3 ∧ (chStep t c r g ch).osc.d5 = ch.osc.d4 ∧
    (chStep t c r g ch).osc.d6 = ch.osc.d5 ∧ (chStep t c r g ch).osc.d7 = ch.osc.d6 ∧
    (chStep t c r g ch).osc.d8 = ch.osc.d7 ∧ (chStep t c r g ch).osc.d9 = ch.osc.d8 ∧
    (chStep t c r g ch).osc.d10 = ch.osc.d9 :=
  ⟨rfl, rfl, rfl, rfl, rfl, rfl, rfl, rfl, rfl⟩

theorem chStep_la (t : Bool) (c : Nat) (r : Bool) (g : Nat) (ch : ChState) :
    (chStep t c r g ch).la = latStep r (oscOut ch.osc) ch.la := rfl

theorem latStep_fields (r : Bool) (d : Nat) (s : LatState) :
    (latStep r d s).l1 = (if r then d else 0) ∧
    (latStep r d s).l2 = (if r then s.l1 else 0) ∧
    (latStep r d s).l3 = (if r then s.l2 else 0) ∧
    (latStep r d s).l4 = (if r then s.l3 else 0) := by
  cases r <;> exact ⟨rfl, rfl, rfl, rfl⟩

theorem chStep_prodRealR1 (t : Bool) (c : Nat) (r : Bool) (g : Nat) (ch : ChState) :
    (chStep t c r g ch).prodRealR1 =
      if r then prodReg (toSigned16 (latOut ch.la % 2 ^ 16)) (toSigned16 g) else 0 := rfl

theorem chStep_prodImagR1 (t : Bool) (c : Nat) (r : Bool) (g : Nat) (ch : ChState) :
    (chStep t c r g ch).prodImagR1 =
      if r then prodReg (toSigned16 (latOut ch.la / 2 ^ 16 % 2 ^ 16)) (toSigned16 g)
      else 0 := rfl

theorem chStep_prodR1 (t : Bool) (c : Nat) (r : Bool) (g : Nat) (ch : ChState) :
    (chStep t c r g ch).prodR1 =
      if r then packProd (prodQ ch.prodImagR1) (prodQ ch.prodRealR1) else 0 := rfl

/-! ### Accumulator evolution -/

/-- Under constant control input from the power-on state, the phase
accumulator holds k times the increment (modulo 2 to the 32) after k+1
cycles: the first cycle consumes nothing because the valid flag starts
low. -/
theorem acc_const {N : Nat} (d g : Nat) (i : Fin N) :
    ∀ k, ((run (fun _ => ⟨true, g, fun _ => d⟩) (initState N) (k + 1)).chs i).osc.acc
      = d * k % 2 ^ 32 := by
  intro k
  induction k with
  | zero =>
    rw [acc_run]
    show (if (initState N).tvalid then _ else _) = _
    rfl
  | succ k ih =>
    rw [acc_run _ _ (k + 1) i, tvalid_run _ _ k, ctrlR_run _ _ k i]
    simp only [if_true]
    rw [ih]
    rw [Nat.mod_add_mod]
    ring_nf

/-- The accumulator after j+1 cycles depends only on the initial state and
on the control inputs of cycles strictly before j, for runs with reset
deasserted. -/
theorem acc_dep {N : Nat} (s0 : TopState N) (x y : Nat → DIn N) (i : Fin N)
    (Hx : ∀ k, (x k).rstn = true) (Hy : ∀ k, (y k).rstn = true) :
    ∀ j, (∀ k, k < j → (x k).ctrl i = (y k).ctrl i) →
      ((run x s0 (j + 1)).chs i).osc.acc = ((run y s0 (j + 1)).chs i).osc.acc := by
  intro j
  induction j with
  | zero =>
    intro _
    rw [acc_run x s0 0 i, acc_run y s0 0 i]
    rfl
  | succ j ih =>
    intro hc
    rw [acc_run x s0 (j + 1) i, acc_run y s0 (j + 1) i,
      tvalid_run x s0 j, tvalid_run y s0 j, Hx j, Hy j,
      ctrlR_run x s0 j i, ctrlR_run y s0 j i, Hx j, Hy j]
    simp only [if_true]
    rw [ih (fun k hk => hc k (Nat.lt_succ_of_lt hk)), hc j (Nat.lt_succ_self j)]

/-! ### Width invariant preservation -/

theorem chStep_wf (t : Bool) (c : Nat) (r : Bool) (g : Nat)
    (ch : ChState) (hc : chWf ch) (_hctrl : c < 2 ^ 32) :
    chWf (chStep t c r g ch) := by
  obtain ⟨h1, h2, h3, h4, h5, h6, h7, h8, h9, h10, h11, h12, h13, h14, h15,
    h16, h17, h18⟩ := hc
  obtain ⟨s2, s3, s4, s5, s6, s7, s8, s9, s10⟩ := chStep_dshift t c r g ch
  obtain ⟨f1, f2, f3, f4⟩ := latStep_fields r (oscOut ch.osc) ch.la
  unfold chWf
  refine ⟨?_, ?_, ?_, ?_, ?_, ?_, ?_, ?_, ?_, ?_, ?_, ?_, ?_, ?_, ?_, ?_, ?_, ?_⟩
  · rw [chStep_acc]; split <;> omega
  · rw [chStep_d1]; exact ddsAmp_lt _
  · rw [s2]; exact h2
  · rw [s3]; exact h3
  · rw [s4]; exact h4
  · rw [s5]; exact h5
  · rw [s6]; exact h6
  · rw [s7]; exact h7
  · rw [s8]; exact h8
  · rw [s9]; exact h9
  · rw [s10]; exact h10
  · rw [chStep_la, f1]; unfold oscOut; split <;> omega
  · rw [chStep_la, f2]; split <;> omega
  · rw [chStep_la, f3]; split <;> omega
  · rw [chStep_la, f4]; split <;> omega
  · rw [chStep_prodRealR1]; split
    · exact prodReg_lt _ _
    · norm_num
  · rw [chStep_prodImagR1]; split
    · exact prodReg_lt _ _
    · norm_num
  · rw [chStep_prodR1]; split
    · exact packProd_lt _ _ (prodQ_lt _) (prodQ_lt _)
    · norm_num

theorem topStep_wf {N : Nat} (x : DIn N) (s : TopState N)
    (hs : wf s) (hx : inWf x) : wf (topStep x s) := by
  intro i
  obtain ⟨hg, hctrl⟩ := hx
  obtain ⟨hcr, hch⟩ := hs i
  constructor
  · show (if x.rstn then x.ctrl i else 0) < 2 ^ 32
    split
    · exact hctrl i
    · norm_num
  · exact chStep_wf _ _ _ _ _ hch hcr

theorem run_wf {N : Nat} (x : Nat → DIn N) (s0 : TopState N)
    (hs : wf s0) (hx : ∀ k, inWf (x k)) : ∀ n, wf (run x s0 n) := by
  intro n
  induction n with
  | zero => exact hs
  | succ n ih => exact topStep_wf (x n) (run x s0 n) ih (hx n)

/-! ### Output bus concatenation -/

theorem concatWords_extract :
    ∀ (l : List Nat) (j : Nat), (∀ w ∈ l, w < 2 ^ 32) → j < l.length →
      concatWords l / 2 ^ (32 * j) % 2 ^ 32 = l.getD j 0 := by
  intro l
  induction l with
  | nil => intro j _ hj; simp at hj
  | cons w ws ih =>
    intro j hb hj
    cases j with
    | zero =>
      have hw : w < 2 ^ 32 := hb w (List.mem_cons_self _ _)
      show (w + 2 ^ 32 * concatWords ws) / 2 ^ 0 % 2 ^ 32 = w
      simp only [pow_zero, Nat.div_one]
      omega
    | succ k =>
      have hk : k < ws.length := by
        simp only [List.length_cons] at hj
        omega
      have hw : w < 2 ^ 32 := hb w (List.mem_cons_self _ _)
      have hstep : concatWords (w :: ws) / 2 ^ (32 * (k + 1)) =
          concatWords ws / 2 ^ (32 * k) := by
        show (w + 2 ^ 32 * concatWords ws) / 2 ^ (32 * (k + 1)) = _
        have hexp : 2 ^ (32 * (k + 1)) = 2 ^ 32 * 2 ^ (32 * k) := by
          rw [← pow_add]
          ring_nf
        rw [hexp, ← Nat.div_div_eq_div_mul]
        have hdiv : (w + 2 ^ 32 * concatWords ws) / 2 ^ 32 = concatWords ws := by
          omega
        rw [hdiv]
      rw [hstep, ih k (fun v hv => hb v (List.mem_cons_of_mem _ hv)) hk]
      rfl

theorem busOut_extract {N : Nat} (s : TopState N) (i : Fin N) (hw : wf s) :
    busOut s / 2 ^ (32 * (i : Nat)) % 2 ^ 32 = outWord s i := by
  unfold busOut
  have hb : ∀ w ∈ List.ofFn (outWord s), w < 2 ^ 32 := by
    intro w hwm
    rw [List.mem_ofFn] at hwm
    obtain ⟨j, rfl⟩ := hwm
    exact ((hw j).2).2.2.2.2.2.2.2.2.2.2.2.2.2.2.2.2.2
  have hlen : (i : Nat) < (List.ofFn (outWord s)).length := by
    rw [List.length_ofFn]
    exact i.isLt
  rw [concatWords_extract _ _ hb hlen]
  rw [List.getD_eq_getElem _ _ hlen]
  simp [List.getElem_ofFn]

end DdsTop

namespace DdsTop

instance {N : Nat} (x : DIn N) : Decidable (inWf x) := by
  unfold inWf; infer_instance

/-! ### Claim theorems -/

/-- C1: for every channel i and every cycle of steady state (any cycle at
least 2 with reset deasserted throughout, from any starting state), each
16-bit output component equals bits 30 down to 15 of the 32-bit signed
product of the delayed 16-bit signed sample (the aligner output slice two
cycles earlier) and the 16-bit signed Q15 gain sampled two cycles earlier:
output = (sample * gain) >> 15 with truncation toward negative infinity at
the bit level, not rounded and not saturated. -/
theorem c1_gain_truncation {N : Nat} (x : Nat → DIn N) (s0 : TopState N) (i : Fin N)
    (H : ∀ k, (x k).rstn = true) (m : Nat) :
    outWord (run x s0 (m + 2)) i % 2 ^ 16 =
      (((toSigned16 (latOut (((run x s0 m).chs i).la) % 2 ^ 16) *
        toSigned16 ((x m).gain)).fdiv (2 ^ 15)) % (2 ^ 16)).toNat ∧
    outWord (run x s0 (m + 2)) i / 2 ^ 16 % 2 ^ 16 =
      (((toSigned16 (latOut (((run x s0 m).chs i).la) / 2 ^ 16 % 2 ^ 16) *
        toSigned16 ((x m).gain)).fdiv (2 ^ 15)) % (2 ^ 16)).toNat := by
  have hout : outWord (run x s0 (m + 2)) i =
      packProd (prodQ (((run x s0 (m + 1)).chs i).prodImagR1))
        (prodQ (((run x s0 (m + 1)).chs i).prodRealR1)) := by
    show ((run x s0 (m + 1 + 1)).chs i).prodR1 = _
    exact prodR1_run x s0 (m + 1) i (H (m + 1))
  rw [hout, prodRealR1_run x s0 m i (H m), prodImagR1_run x s0 m i (H m)]
  constructor
  · rw [packProd_low _ _ (prodQ_lt _)]
    exact prodQ_prodReg _ _
  · rw [packProd_high _ _ (prodQ_lt _) (prodQ_lt _)]
    exact prodQ_prodReg _ _

theorem c1_gain_truncation_witness :
    outWord (run (fun _ => (⟨true, 17000, fun _ => 5⟩ : DIn 2)) (initState 2) (0 + 2)) 0 % 2 ^ 16 =
      (((toSigned16 (latOut (((run (fun _ => (⟨true, 17000, fun _ => 5⟩ : DIn 2)) (initState 2) 0).chs 0).la) % 2 ^ 16) *
        toSigned16 (((fun _ => (⟨true, 17000, fun _ => 5⟩ : DIn 2)) 0).gain)).fdiv (2 ^ 15)) % (2 ^ 16)).toNat ∧
    outWord (run (fun _ => (⟨true, 17000, fun _ => 5⟩ : DIn 2)) (initState 2) (0 + 2)) 0 / 2 ^ 16 % 2 ^ 16 =
      (((toSigned16 (latOut (((run (fun _ => (⟨true, 17000, fun _ => 5⟩ : DIn 2)) (initState 2) 0).chs 0).la) / 2 ^ 16 % 2 ^ 16) *
        toSigned16 (((fun _ => (⟨true, 17000, fun _ => 5⟩ : DIn 2)) 0).gain)).fdiv (2 ^ 15)) % (2 ^ 16)).toNat :=
  c1_gain_truncation (fun _ => (⟨true, 17000, fun _ => 5⟩ : DIn 2)) (initState 2) 0
    (fun _ => rfl) 0

/-- C9: in the single corner case sample and gain both -32768, the gain
stage output is -32768: the exact product 2 to the 30 shifted right by 15
is mathematically +32768, which wraps modulo 2 to the 16 to -32768 rather
than saturating; for every other in-range pair the bit slice represents
the floor-shifted product exactly, without wrap. -/
theorem c9_corner_wrap :
    (toSigned16 (prodQ (prodReg (-32768) (-32768))) = -32768 ∧
      ((-32768 : Int) * (-32768)).fdiv (2 ^ 15) = 32768) ∧
    ∀ a g : Int, -32768 ≤ a → a < 32768 → -32768 ≤ g → g < 32768 →
      ¬(a = -32768 ∧ g = -32768) →
      toSigned16 (prodQ (prodReg a g)) = (a * g).fdiv (2 ^ 15) := by
  refine ⟨⟨by decide, by decide⟩, ?_⟩
  intro a g ha1 ha2 hg1 hg2 hc
  obtain ⟨hb1, hb2⟩ := prod_bounds a g ha1 ha2 hg1 hg2 hc
  obtain ⟨hf1, hf2⟩ := fdiv_range_of_bounds _ hb1 hb2
  rw [prodQ_prodReg, show ((2 : Int) ^ 16) = 65536 from by norm_num]
  exact toSigned16_toBits16 _ hf1 hf2

theorem c9_corner_wrap_witness :
    toSigned16 (prodQ (prodReg 20000 (-12345))) =
      ((20000 : Int) * (-12345)).fdiv (2 ^ 15) :=
  c9_corner_wrap.2 20000 (-12345) (by decide) (by decide) (by decide) (by decide)
    (by decide)

/-- C4: for every input sequence respecting the bus widths, each tick of
the pipeline is the deterministic total step function applied once, and
every cycle yields exactly one well-formed N-channel output frame (each
channel word inside 32 bits), indefinitely, with no data-dependent stall
or variable-latency branch. -/
theorem c4_throughput {N : Nat} (x : Nat → DIn N) (s0 : TopState N)
    (hs : wf s0) (hx : ∀ k, inWf (x k)) :
    ∀ n, run x s0 (n + 1) = topStep (x n) (run x s0 n) ∧
      ∀ i, outWord (run x s0 n) i < 2 ^ 32 := by
  intro n
  refine ⟨rfl, ?_⟩
  intro i
  exact (((run_wf x s0 hs hx n) i).2).2.2.2.2.2.2.2.2.2.2.2.2.2.2.2.2.2

theorem c4_throughput_witness :
    wf (initState 2) ∧
    ∀ n, run (fun _ => (⟨true, 1, fun _ => 2⟩ : DIn 2)) (initState 2) (n + 1) =
        topStep ((fun _ => (⟨true, 1, fun _ => 2⟩ : DIn 2)) n)
          (run (fun _ => (⟨true, 1, fun _ => 2⟩ : DIn 2)) (initState 2) n) ∧
      ∀ i, outWord (run (fun _ => (⟨true, 1, fun _ => 2⟩ : DIn 2)) (initState 2) n) i
        < 2 ^ 32 :=
  ⟨by decide, c4_throughput _ _ (by decide) (fun _ => by decide)⟩

/-- C8: for every channel and cycle, the channel output word is produced
by exactly one final synchronous register stage packing the imaginary bit
slice into the high half and the real bit slice into the low half of one
32-bit word, and the output bus is the concatenation of the per-channel
words with channel i occupying bits i*32 up to i*32+31. -/
theorem c8_output_packing {N : Nat} (s : TopState N) (x : DIn N) (i : Fin N)
    (hw : wf s) (hr : x.rstn = true) :
    outWord (topStep x s) i =
      packProd (prodQ ((s.chs i).prodImagR1)) (prodQ ((s.chs i).prodRealR1)) ∧
    busOut s / 2 ^ (32 * (i : Nat)) % 2 ^ 32 = outWord s i := by
  constructor
  · show (chStep s.tvalid (s.ctrlR i) x.rstn x.gain (s.chs i)).prodR1 = _
    rw [chStep_prodR1, hr]
    rfl
  · exact busOut_extract s i hw

theorem c8_output_packing_witness :
    wf (initState 2) ∧
    outWord (topStep (⟨true, 9, fun _ => 4⟩ : DIn 2) (initState 2)) 1 =
      packProd (prodQ (((initState 2).chs 1).prodImagR1))
        (prodQ (((initState 2).chs 1).prodRealR1)) ∧
    busOut (initState 2) / 2 ^ (32 * ((1 : Fin 2) : Nat)) % 2 ^ 32 =
      outWord (initState 2) 1 :=
  ⟨by decide, c8_output_packing (initState 2) (⟨true, 9, fun _ => 4⟩ : DIn 2) 1
    (by decide) rfl⟩

/-- C10: after reset release the oscillator-input valid flag dds_tvalid_r
is low for exactly the first cycle and then holds high on every subsequent
cycle for as long as reset stays deasserted, so the oscillator bank is fed
a valid control word on every cycle after the first. -/
theorem c10_tvalid_profile {N : Nat} (x : Nat → DIn N) (s0 : TopState N) (t : Nat)
    (h0 : (x t).rstn = false) (h1 : ∀ k, t < k → (x k).rstn = true) :
    (run x s0 (t + 1)).tvalid = false ∧
    ∀ m, t + 2 ≤ m → (run x s0 m).tvalid = true := by
  constructor
  · rw [tvalid_run, h0]
  · intro m hm
    obtain ⟨j, rfl⟩ := Nat.exists_eq_add_of_le hm
    have he : t + 2 + j = (t + 1 + j) + 1 := by omega
    rw [he, tvalid_run]
    exact h1 _ (by omega)

theorem c10_tvalid_profile_witness :
    (run (fun k => (⟨k != 0, 0, fun _ => 0⟩ : DIn 2)) (initState 2) (0 + 1)).tvalid
      = false ∧
    ∀ m, 0 + 2 ≤ m →
      (run (fun k => (⟨k != 0, 0, fun _ => 0⟩ : DIn 2)) (initState 2) m).tvalid = true :=
  c10_tvalid_profile (fun k => (⟨k != 0, 0, fun _ => 0⟩ : DIn 2)) (initState 2) 0 rfl
    (by intro k hk; cases k with | zero => omega | succ j => rfl)

/-- C6: for every channel and every cycle after reset release, the latency
aligner output equals that channel's oscillator output four cycles
earlier, and is zero during the first four cycles after release: a fixed
4-deep shift-register delay applied identically to every channel with no
other transformation. -/
theorem c6_aligner_delay {N : Nat} (x : Nat → DIn N) (s0 : TopState N) (i : Fin N)
    (t : Nat) (h0 : (x t).rstn = false) (h1 : ∀ k, t < k → (x k).rstn = true) :
    (∀ j, 1 ≤ j → j ≤ 4 → latOut (((run x s0 (t + j)).chs i).la) = 0) ∧
    ∀ m, t + 1 ≤ m → latOut (((run x s0 (m + 4)).chs i).la) =
      oscOut (((run x s0 m).chs i).osc) := by
  constructor
  · intro j hj1 hj4
    interval_cases j
    · show ((run x s0 (t + 1)).chs i).la.l4 = 0
      rw [la_run_reset x s0 t i h0]
      rfl
    · show ((run x s0 (t + 1 + 1)).chs i).la.l4 = 0
      rw [la_run x s0 (t + 1) i (h1 _ (by omega))]
      show ((run x s0 (t + 1)).chs i).la.l3 = 0
      rw [la_run_reset x s0 t i h0]
      rfl
    · show ((run x s0 (t + 2 + 1)).chs i).la.l4 = 0
      rw [la_run x s0 (t + 2) i (h1 _ (by omega))]
      show ((run x s0 (t + 1 + 1)).chs i).la.l3 = 0
      rw [la_run x s0 (t + 1) i (h1 _ (by omega))]
      show ((run x s0 (t + 1)).chs i).la.l2 = 0
      rw [la_run_reset x s0 t i h0]
      rfl
    · show ((run x s0 (t + 3 + 1)).chs i).la.l4 = 0
      rw [la_run x s0 (t + 3) i (h1 _ (by omega))]
      show ((run x s0 (t + 2 + 1)).chs i).la.l3 = 0
      rw [la_run x s0 (t + 2) i (h1 _ (by omega))]
      show ((run x s0 (t + 1 + 1)).chs i).la.l2 = 0
      rw [la_run x s0 (t + 1) i (h1 _ (by omega))]
      show ((run x s0 (t + 1)).chs i).la.l1 = 0
      rw [la_run_reset x s0 t i h0]
      rfl
  · intro m hm
    exact la4_run x s0 m i (h1 _ (by omega)) (h1 _ (by omega)) (h1 _ (by omega))
      (h1 _ (by omega))

theorem c6_aligner_delay_witness :
    (∀ j, 1 ≤ j → j ≤ 4 →
      latOut (((run (fun k => (⟨k != 0, 0, fun _ => 6⟩ : DIn 2)) (initState 2) (0 + j)).chs 0).la) = 0) ∧
    ∀ m, 0 + 1 ≤ m →
      latOut (((run (fun k => (⟨k != 0, 0, fun _ => 6⟩ : DIn 2)) (initState 2) (m + 4)).chs 0).la) =
        oscOut (((run (fun k => (⟨k != 0, 0, fun _ => 6⟩ : DIn 2)) (initState 2) m).chs 0).osc) :=
  c6_aligner_delay (fun k => (⟨k != 0, 0, fun _ => 6⟩ : DIn 2)) (initState 2) 0 0 rfl
    (by intro k hk; cases k with | zero => omega | succ j => rfl)

/-- C7: channel i of the output bus is identical in any two runs that
agree on the reset stream, the gain stream, the channel i control-word
stream and the channel i part of the initial state, regardless of every
other channel: no mutable state is shared between channel instances beyond
the broadcast inputs. -/
theorem c7_channel_noninterference {N : Nat} (s0 t0 : TopState N) (x y : Nat → DIn N)
    (i : Fin N) (h1 : s0.tvalid = t0.tvalid) (h2 : s0.ctrlR i = t0.ctrlR i)
    (h3 : s0.chs i = t0.chs i)
    (hin : ∀ k, (x k).rstn = (y k).rstn ∧ (x k).gain = (y k).gain ∧
      (x k).ctrl i = (y k).ctrl i) :
    ∀ n, outWord (run x s0 n) i = outWord (run y t0 n) i := by
  have key : ∀ n, (run x s0 n).tvalid = (run y t0 n).tvalid ∧
      (run x s0 n).ctrlR i = (run y t0 n).ctrlR i ∧
      (run x s0 n).chs i = (run y t0 n).chs i := by
    intro n
    induction n with
    | zero => exact ⟨h1, h2, h3⟩
    | succ n ih =>
      obtain ⟨iv, ic, ich⟩ := ih
      obtain ⟨er, eg, ec⟩ := hin n
      refine ⟨?_, ?_, ?_⟩
      · rw [tvalid_run, tvalid_run, er]
      · rw [ctrlR_run, ctrlR_run, er, ec]
      · rw [chs_run, chs_run, iv, ic, ich, er, eg]
  intro n
  unfold outWord
  rw [(key n).2.2]

theorem c7_channel_noninterference_witness :
    outWord (run (fun _ => (⟨true, 11, fun _ => 3⟩ : DIn 2)) (initState 2) 19) 0 =
      outWord (run (fun _ => (⟨true, 11, fun _ => 3⟩ : DIn 2)) (initState 2) 19) 0 :=
  c7_channel_noninterference (initState 2) (initState 2)
    (fun _ => (⟨true, 11, fun _ => 3⟩ : DIn 2)) (fun _ => (⟨true, 11, fun _ => 3⟩ : DIn 2))
    0 rfl rfl rfl (fun _ => ⟨rfl, rfl, rfl⟩) 19

end DdsTop

namespace DdsTop

/-- C2 counterexample: two runs of the reference configuration (N = 2)
from the power-on state agree on reset and on every control word, and
their gain inputs differ only at cycle 15, yet they already produce
different channel-0 output words at cycle 17 = 15 + 2, well before cycle
15 + 17: the gain path has latency 2, so no single constant equal to 16
cycles plus one input-register cycle covers every configuration change. -/
theorem c2_single_latency_counterexample :
    outWord (run (fun k => (⟨true, if k = 15 then 16384 else 0, fun _ => 0⟩ : DIn 2))
        (initState 2) 17) 0 ≠
      outWord (run (fun _ => (⟨true, 0, fun _ => 0⟩ : DIn 2)) (initState 2) 17) 0 := by
  decide

/-- C2 (amended): the output word of channel i at cycle m+17 is a function
only of the control-word inputs up to cycle m and of the gain input of
cycle m+15: a control-word (phase-increment) change is first observable 17
cycles later (one input-register cycle, 10 oscillator cycles, 4 aligner
cycles, 2 multiply/output register cycles), while a gain change is first
observable 2 cycles later; both latency constants are identical for every
channel and independent of the data values in flight. -/
theorem c2_latency_amended {N : Nat} (s0 : TopState N) (x y : Nat → DIn N) (i : Fin N)
    (Hx : ∀ k, (x k).rstn = true) (Hy : ∀ k, (y k).rstn = true) (m : Nat)
    (Hctrl : ∀ k, k ≤ m → (x k).ctrl i = (y k).ctrl i)
    (Hgain : (x (m + 15)).gain = (y (m + 15)).gain) :
    outWord (run x s0 (m + 17)) i = outWord (run y s0 (m + 17)) i := by
  rw [out_formula x s0 i Hx m, out_formula y s0 i Hy m]
  have hacc : ((run x s0 (m + 2)).chs i).osc.acc =
      ((run y s0 (m + 2)).chs i).osc.acc := by
    show ((run x s0 (m + 1 + 1)).chs i).osc.acc = ((run y s0 (m + 1 + 1)).chs i).osc.acc
    exact acc_dep s0 x y i Hx Hy (m + 1) (fun k hk => Hctrl k (by omega))
  rw [hacc, Hgain]

theorem c2_latency_amended_witness :
    outWord (run (fun _ => (⟨true, 8, fun _ => 3⟩ : DIn 2)) (initState 2) (0 + 17)) 0 =
      outWord (run (fun _ => (⟨true, 8, fun _ => 3⟩ : DIn 2)) (initState 2) (0 + 17)) 0 :=
  c2_latency_amended (initState 2) (fun _ => (⟨true, 8, fun _ => 3⟩ : DIn 2))
    (fun _ => (⟨true, 8, fun _ => 3⟩ : DIn 2)) 0 (fun _ => rfl) (fun _ => rfl) 0
    (fun _ _ => rfl) rfl

/-- C3 counterexample: after one single cycle with reset asserted from the
power-on state of the reference configuration, the first oscillator
pipeline register of channel 0 holds the quadrature sample of phase 0
(whose real part is the nonzero full-scale cosine), not zero: the
oscillator instances have no reset connection in the source, so asserting
reset does not zero every internal register of the pipeline within one
cycle. -/
theorem c3_reset_counterexample :
    (⟨false, 0, fun _ => 0⟩ : DIn 2).rstn = false ∧
    ((topStep (⟨false, 0, fun _ => 0⟩ : DIn 2) (initState 2)).chs 0).osc.d1 ≠ 0 :=
  ⟨rfl, by decide⟩

/-- C3 (amended): asserting reset (rstn low) forces every register of
dds_top itself - the valid flag, the control-word register, the four
latency-aligner registers, the two product registers and the output
register - and therefore the whole output bus to zero within one cycle,
and keeps them zero on every cycle reset is held; the oscillator
instances, however, have no reset connection, so their internal registers
(phase accumulator and output pipeline) are unaffected by reset. -/
theorem c3_reset_amended {N : Nat} (s : TopState N) (x : DIn N) (hr : x.rstn = false) :
    (topStep x s).tvalid = false ∧ (∀ i, (topStep x s).ctrlR i = 0) ∧
    ∀ i, ((topStep x s).chs i).la = zeroLat ∧
      ((topStep x s).chs i).prodRealR1 = 0 ∧ ((topStep x s).chs i).prodImagR1 = 0 ∧
      ((topStep x s).chs i).prodR1 = 0 ∧ outWord (topStep x s) i = 0 := by
  refine ⟨?_, fun i => ?_, fun i => ⟨?_, ?_, ?_, ?_, ?_⟩⟩
  · show (if x.rstn then true else false) = false
    rw [hr]
    rfl
  · show (if x.rstn then x.ctrl i else 0) = 0
    rw [hr]
    rfl
  · show (chStep s.tvalid (s.ctrlR i) x.rstn x.gain (s.chs i)).la = zeroLat
    rw [chStep_la, hr]
    rfl
  · show (chStep s.tvalid (s.ctrlR i) x.rstn x.gain (s.chs i)).prodRealR1 = 0
    rw [chStep_prodRealR1, hr]
    rfl
  · show (chStep s.tvalid (s.ctrlR i) x.rstn x.gain (s.chs i)).prodImagR1 = 0
    rw [chStep_prodImagR1, hr]
    rfl
  · show (chStep s.tvalid (s.ctrlR i) x.rstn x.gain (s.chs i)).prodR1 = 0
    rw [chStep_prodR1, hr]
    rfl
  · show (chStep s.tvalid (s.ctrlR i) x.rstn x.gain (s.chs i)).prodR1 = 0
    rw [chStep_prodR1, hr]
    rfl

theorem c3_reset_amended_witness :
    (topStep (⟨false, 7, fun _ => 9⟩ : DIn 2) (initState 2)).tvalid = false ∧
    (∀ i, (topStep (⟨false, 7, fun _ => 9⟩ : DIn 2) (initState 2)).ctrlR i = 0) ∧
    ∀ i, ((topStep (⟨false, 7, fun _ => 9⟩ : DIn 2) (initState 2)).chs i).la = zeroLat ∧
      ((topStep (⟨false, 7, fun _ => 9⟩ : DIn 2) (initState 2)).chs i).prodRealR1 = 0 ∧
      ((topStep (⟨false, 7, fun _ => 9⟩ : DIn 2) (initState 2)).chs i).prodImagR1 = 0 ∧
      ((topStep (⟨false, 7, fun _ => 9⟩ : DIn 2) (initState 2)).chs i).prodR1 = 0 ∧
      outWord (topStep (⟨false, 7, fun _ => 9⟩ : DIn 2) (initState 2)) i = 0 :=
  c3_reset_amended (initState 2) (⟨false, 7, fun _ => 9⟩ : DIn 2) rfl

/-- C5: for every channel, a constant increment d with d * P = 2^32 (so P
is exactly 2^32 / d and d is nonzero), sustained with constant gain from
the power-on state long enough to fill the pipeline, makes the
steady-state output periodic with period P cycles; moreover the two
16-bit components of the output word at cycle n+17 are the bit slices of
the Q15 products of the gain with the quantized cosine and sine of the
accumulated phase d * (n+1) modulo 2^32. -/
theorem c5_periodicity {N : Nat} (d P g : Nat) (i : Fin N) (hP : d * P = 2 ^ 32) :
    ∀ n,
      outWord (run (fun _ => (⟨true, g, fun _ => d⟩ : DIn N)) (initState N)
          ((n + 17) + P)) i =
        outWord (run (fun _ => (⟨true, g, fun _ => d⟩ : DIn N)) (initState N)
          (n + 17)) i ∧
      outWord (run (fun _ => (⟨true, g, fun _ => d⟩ : DIn N)) (initState N)
          (n + 17)) i % 2 ^ 16 =
        prodQ (prodReg (quantCos (d * (n + 1) % 2 ^ 32)) (toSigned16 g)) ∧
      outWord (run (fun _ => (⟨true, g, fun _ => d⟩ : DIn N)) (initState N)
          (n + 17)) i / 2 ^ 16 % 2 ^ 16 =
        prodQ (prodReg (quantSin (d * (n + 1) % 2 ^ 32)) (toSigned16 g)) := by
  intro n
  have H : ∀ k : Nat, ((fun _ : Nat => (⟨true, g, fun _ => d⟩ : DIn N)) k).rstn = true :=
    fun _ => rfl
  have hacc : ∀ m : Nat, ((run (fun _ : Nat => (⟨true, g, fun _ => d⟩ : DIn N)) (initState N)
      (m + 2)).chs i).osc.acc = d * (m + 1) % 2 ^ 32 := by
    intro m
    show ((run (fun _ : Nat => (⟨true, g, fun _ => d⟩ : DIn N)) (initState N)
      (m + 1 + 1)).chs i).osc.acc = _
    exact acc_const d g i (m + 1)
  have hf := out_formula (fun _ => (⟨true, g, fun _ => d⟩ : DIn N)) (initState N) i H n
  have hfP := out_formula (fun _ => (⟨true, g, fun _ => d⟩ : DIn N)) (initState N) i H
    (n + P)
  refine ⟨?_, ?_, ?_⟩
  · have hidx : (n + 17) + P = (n + P) + 17 := by omega
    rw [hidx, hfP, hf, hacc, hacc]
    have hper : d * (n + P + 1) % 2 ^ 32 = d * (n + 1) % 2 ^ 32 := by
      have hd : d * (n + P + 1) = d * (n + 1) + d * P := by ring
      rw [hd, hP, Nat.add_mod_right]
    rw [hper]
  · rw [hf, hacc, packProd_low _ _ (prodQ_lt _), ddsAmp_low]
    rw [toSigned16_toBits16 _ (quantCos_range _).1 (quantCos_range _).2]
  · rw [hf, hacc, packProd_high _ _ (prodQ_lt _) (prodQ_lt _), ddsAmp_high]
    rw [toSigned16_toBits16 _ (quantSin_range _).1 (quantSin_range _).2]

theorem c5_periodicity_witness :
    2 ^ 31 * 2 = 2 ^ 32 ∧
    (outWord (run (fun _ => (⟨true, 16384, fun _ => 2 ^ 31⟩ : DIn 2)) (initState 2)
        ((0 + 17) + 2)) 0 =
      outWord (run (fun _ => (⟨true, 16384, fun _ => 2 ^ 31⟩ : DIn 2)) (initState 2)
        (0 + 17)) 0 ∧
    outWord (run (fun _ => (⟨true, 16384, fun _ => 2 ^ 31⟩ : DIn 2)) (initState 2)
        (0 + 17)) 0 % 2 ^ 16 =
      prodQ (prodReg (quantCos (2 ^ 31 * (0 + 1) % 2 ^ 32)) (toSigned16 16384)) ∧
    outWord (run (fun _ => (⟨true, 16384, fun _ => 2 ^ 31⟩ : DIn 2)) (initState 2)
        (0 + 17)) 0 / 2 ^ 16 % 2 ^ 16 =
      prodQ (prodReg (quantSin (2 ^ 31 * (0 + 1) % 2 ^ 32)) (toSigned16 16384))) :=
  ⟨by norm_num, c5_periodicity (2 ^ 31) 2 16384 0 (by norm_num) 0⟩

end DdsTop
